import Mathlib

/-!
Verification of the whitespace-fixing template-string normalizer
(`fix-whitespace.js`).

Strings are shallowly embedded as `List Char` (`Str`); JavaScript's
`String.prototype.split('\n')` becomes `splitLines`, `Array.prototype.join('\n')`
becomes `joinLines`.  Each function of the source file is translated to a Lean
definition of the same name; JavaScript values appearing as interpolated
template values are modelled by the inductive `JSVal`, with JavaScript
truthiness (`jsTruthy`) and string coercion (`jsToString`).
-/

/-- A JavaScript string, embedded as a list of characters. -/
abbrev Str := List Char

/-- Translation of `isWhitespaceCharacter(char)`: `[' '].includes(char)`.
Only the space character counts; line breaks and tabs are intentionally not
included (as stated by the source comment). -/
def isWhitespaceCharacter (c : Char) : Bool :=
  [' '].contains c

/-- Translation of `whitespaceAtBeginning(str)`: the loop returns the index of
the first non-whitespace character, or the full length when every character is
whitespace. -/
def whitespaceAtBeginning : Str → Nat
  | [] => 0
  | c :: rest => if isWhitespaceCharacter c then whitespaceAtBeginning rest + 1 else 0

/-- Translation of `isOnlyWhitespace(str)`:
`whitespaceAtBeginning(str) === str.length`. -/
def isOnlyWhitespace (s : Str) : Bool :=
  whitespaceAtBeginning s == s.length

/-- `str.split('\n')` on the embedded strings.  Always returns a non-empty
list; splitting the empty string gives `[[]]`, matching JavaScript where
`''.split('\n')` is `['']`. -/
def splitLines : Str → List Str
  | [] => [[]]
  | c :: rest =>
    let r := splitLines rest
    if c = '\n' then [] :: r else (c :: r.headI) :: r.tail

/-- `lines.join('\n')` on the embedded strings. -/
def joinLines : List Str → Str
  | [] => []
  | [l] => l
  | l :: l' :: ls => l ++ '\n' :: joinLines (l' :: ls)

/-- Translation of `squishArrays(arr1, arr2)`: like concatenation, but the
first item of `arr2` is concatenated onto the last item of `arr1`
(`(lastOfArr1 || '') + first`, and `arr1.slice(0, -1)` keeps the rest).
Every call site of the source passes a `split('\n')` result (hence a non-empty
array) as `arr2`; for totality the empty case returns `arr1`. -/
def squishArrays (arr1 arr2 : List Str) : List Str :=
  match arr2 with
  | [] => arr1
  | first :: rest => arr1.dropLast ++ ((arr1.getLast?.getD []) ++ first) :: rest

/-- JavaScript values that can appear as interpolated template values. -/
inductive JSVal where
  | vstr (s : Str)
  | vnum (n : Int)
  | vnan
  | vbool (b : Bool)
  | vnull
  | vundefined
deriving DecidableEq

/-- JavaScript truthiness, as tested by `if (value)`: the falsy values are the
empty string, numeric zero, `NaN`, `false`, `null` and `undefined`. -/
def jsTruthy : JSVal → Bool
  | .vstr s => !s.isEmpty
  | .vnum n => n != 0
  | .vnan => false
  | .vbool b => b
  | .vnull => false
  | .vundefined => false

/-- JavaScript string coercion `value.toString()` (the source only applies it
to truthy values). -/
def jsToString : JSVal → Str
  | .vstr s => s
  | .vnum n => (toString n).toList
  | .vnan => ['N', 'a', 'N']
  | .vbool true => ['t', 'r', 'u', 'e']
  | .vbool false => ['f', 'a', 'l', 's', 'e']
  | .vnull => ['n', 'u', 'l', 'l']
  | .vundefined => "undefined".toList

/-- The body of the loop of `joinTemplateString` for one literal and the value
at the same index (`values[literalI]`; `none` when the index is past the end of
`values`, which in JavaScript yields `undefined`, a falsy value).  Computes the
`curResultLines` array of the source. -/
def curResultLinesOf (literal : Str) (value : Option JSVal) : List Str :=
  let literalLines := splitLines literal
  match value with
  | some v =>
    if jsTruthy v then
      let lastLiteralLine := literalLines.getLastD []
      let whitespaceAmount := whitespaceAtBeginning lastLiteralLine
      let valueLines := splitLines (jsToString v)
      squishArrays literalLines
        (valueLines.headI :: valueLines.tail.map
          (fun line => List.replicate whitespaceAmount ' ' ++ line))
    else literalLines
  | none => literalLines

/-- The loop of `joinTemplateString`: `resultLines` starts empty and each
iteration squishes the current literal-with-value lines onto it. -/
def joinLoop : List Str → List JSVal → List Str → List Str
  | [], _, acc => acc
  | literal :: lits, vals, acc =>
    joinLoop lits vals.tail (squishArrays acc (curResultLinesOf literal vals.head?))

/-- Translation of `joinTemplateString(literals, ...values)`. -/
def joinTemplateString (literals : List Str) (values : List JSVal) : Str :=
  joinLines (joinLoop literals values [])

/-- The JavaScript `reduce` step of `whitespaceAtBeginningMultiline`, with
`none` playing the role of `Infinity`. -/
def minStep (min : Option Nat) (line : Str) : Option Nat :=
  if isOnlyWhitespace line then min
  else
    some (match min with
      | none => whitespaceAtBeginning line
      | some m => Nat.min m (whitespaceAtBeginning line))

/-- Translation of `whitespaceAtBeginningMultiline(str)`: the minimum
`whitespaceAtBeginning` over the lines that are not whitespace-only, and `0`
when every line is whitespace-only (the `Infinity` check of the source). -/
def whitespaceAtBeginningMultiline (s : Str) : Nat :=
  ((splitLines s).foldl minStep none).getD 0

/-- Translation of `removeInitialWhitespaceLines(lines)`: the `while`/`shift`
loop drops lines from the front while they are whitespace-only. -/
def removeInitialWhitespaceLines (lines : Str) : Str :=
  joinLines ((splitLines lines).dropWhile isOnlyWhitespace)

/-- Translation of `removeLeadingWhitespaceLines(lines)` (which, per its
comment, removes whitespace-only lines from the *ending*): the `while`/`pop`
loop drops lines from the back while they are whitespace-only. -/
def removeLeadingWhitespaceLines (lines : Str) : Str :=
  joinLines (((splitLines lines).reverse.dropWhile isOnlyWhitespace).reverse)

/-- The intermediate of `tag` after the dedent stage: the joined string, with
`minWhitespace` characters sliced off the start of every line, where
`minWhitespace` is measured on `literals.join('')`. -/
def dedented (literals : List Str) (values : List JSVal) : Str :=
  joinLines ((splitLines (joinTemplateString literals values)).map
    (fun line => line.drop (whitespaceAtBeginningMultiline literals.flatten)))

/-- Translation of `tag(literals, ...values)`, the top-level normalizer:
join, dedent by the minimum indentation of `literals.join('')`, then remove
whitespace-only lines from the beginning and the end. -/
def tag (literals : List Str) (values : List JSVal) : Str :=
  removeLeadingWhitespaceLines (removeInitialWhitespaceLines (dedented literals values))

/-- `specMinIndent` transcribes the specification's description of the dedent
amount: the minimum, over all lines of the string that are not
whitespace-only, of the leading-space count of the line, and `0` when every
line is whitespace-only.  It is the comparison point for the refinement claim
about `whitespaceAtBeginningMultiline`. -/
def specMinIndent (s : Str) : Nat :=
  match ((splitLines s).filter (fun l => !isOnlyWhitespace l)).map whitespaceAtBeginning with
  | [] => 0
  | n :: ns => ns.foldl Nat.min n

/-! ### Character- and line-level lemmas -/

theorem isWhitespaceCharacter_iff (c : Char) : isWhitespaceCharacter c = true ↔ c = ' ' := by
  simp [isWhitespaceCharacter, List.contains, eq_comm]

theorem whitespaceAtBeginning_le (l : Str) : whitespaceAtBeginning l ≤ l.length := by
  induction l with
  | nil => simp [whitespaceAtBeginning]
  | cons c rest ih =>
    simp only [whitespaceAtBeginning, List.length_cons]
    split <;> omega

theorem isOnlyWhitespace_iff_len (l : Str) :
    isOnlyWhitespace l = true ↔ whitespaceAtBeginning l = l.length := by
  simp [isOnlyWhitespace]

theorem whitespaceAtBeginning_cons_space (rest : Str) :
    whitespaceAtBeginning (' ' :: rest) = whitespaceAtBeginning rest + 1 := by
  have h : isWhitespaceCharacter ' ' = true := (isWhitespaceCharacter_iff ' ').mpr rfl
  simp [whitespaceAtBeginning, h]

theorem whitespaceAtBeginning_cons_ne {c : Char} (rest : Str) (hc : c ≠ ' ') :
    whitespaceAtBeginning (c :: rest) = 0 := by
  have h : isWhitespaceCharacter c = false := by
    rcases Bool.eq_false_or_eq_true (isWhitespaceCharacter c) with h | h
    · exact absurd ((isWhitespaceCharacter_iff c).mp h) hc
    · exact h
  simp [whitespaceAtBeginning, h]

theorem isOnlyWhitespace_iff_all (l : Str) :
    isOnlyWhitespace l = true ↔ ∀ c ∈ l, c = ' ' := by
  induction l with
  | nil => simp [isOnlyWhitespace, whitespaceAtBeginning]
  | cons c rest ih =>
    rw [isOnlyWhitespace_iff_len] at *
    by_cases hc : c = ' '
    · subst hc
      rw [whitespaceAtBeginning_cons_space]
      simp only [List.length_cons, List.mem_cons]
      constructor
      · intro h x hx
        rcases hx with h' | h'
        · exact h'
        · exact ih.mp (by omega) x h'
      · intro h
        have := ih.mpr (fun x hx => h x (Or.inr hx))
        omega
    · rw [whitespaceAtBeginning_cons_ne rest hc]
      simp only [List.length_cons, List.mem_cons]
      constructor
      · intro h; omega
      · intro h; exact absurd (h c (Or.inl rfl)) hc

theorem no_newline_of_blank {l : Str} (h : isOnlyWhitespace l = true) : '\n' ∉ l := by
  intro hmem
  have := (isOnlyWhitespace_iff_all l).mp h '\n' hmem
  simp at this

theorem whitespaceAtBeginning_drop {m : Nat} {l : Str} (h : m ≤ whitespaceAtBeginning l) :
    whitespaceAtBeginning (l.drop m) = whitespaceAtBeginning l - m := by
  induction m generalizing l with
  | zero => simp
  | succ k ih =>
    cases l with
    | nil => simp [whitespaceAtBeginning] at h
    | cons c rest =>
      by_cases hc : isWhitespaceCharacter c = true
      · simp only [whitespaceAtBeginning, if_pos hc] at h ⊢
        rw [List.drop_succ_cons, ih (by omega)]
        omega
      · simp [whitespaceAtBeginning, hc] at h

theorem blank_drop {l : Str} (m : Nat) (h : isOnlyWhitespace l = true) :
    isOnlyWhitespace (l.drop m) = true := by
  rw [isOnlyWhitespace_iff_all] at h ⊢
  exact fun c hc => h c (List.drop_subset m l hc)

theorem nonblank_drop {l : Str} {m : Nat} (h : isOnlyWhitespace l = false)
    (hm : m ≤ whitespaceAtBeginning l) : isOnlyWhitespace (l.drop m) = false := by
  have hlen := whitespaceAtBeginning_le l
  have h1 : ¬ (whitespaceAtBeginning l = l.length) := by
    intro hx
    rw [← isOnlyWhitespace_iff_len] at hx
    simp [hx] at h
  rw [← Bool.not_eq_true, isOnlyWhitespace_iff_len, whitespaceAtBeginning_drop hm,
    List.length_drop]
  omega

/-! ### splitLines / joinLines -/

theorem splitLines_cons_newline (rest : Str) :
    splitLines ('\n' :: rest) = [] :: splitLines rest := by
  simp [splitLines]

theorem splitLines_cons_of_ne {c : Char} (rest : Str) (h : c ≠ '\n') :
    splitLines (c :: rest) = (c :: (splitLines rest).headI) :: (splitLines rest).tail := by
  simp [splitLines, h]

theorem splitLines_ne_nil (s : Str) : splitLines s ≠ [] := by
  cases s with
  | nil => simp [splitLines]
  | cons c rest =>
    by_cases h : c = '\n'
    · subst h; rw [splitLines_cons_newline]; simp
    · rw [splitLines_cons_of_ne rest h]; simp

theorem exists_splitLines_cons (s : Str) : ∃ h t, splitLines s = h :: t :=
  List.exists_cons_of_ne_nil (splitLines_ne_nil s)

theorem joinLines_append_head (x y : Str) (t : List Str) :
    joinLines ((x ++ y) :: t) = x ++ joinLines (y :: t) := by
  cases t with
  | nil => simp [joinLines]
  | cons a t' => simp [joinLines]

theorem joinLines_splitLines (s : Str) : joinLines (splitLines s) = s := by
  induction s with
  | nil => simp [splitLines, joinLines]
  | cons c rest ih =>
    obtain ⟨h, t, hht⟩ := exists_splitLines_cons rest
    by_cases hc : c = '\n'
    · subst hc
      rw [splitLines_cons_newline, hht]
      rw [hht] at ih
      simpa [joinLines] using ih
    · rw [splitLines_cons_of_ne rest hc, hht]
      rw [hht] at ih
      simp only [List.headI, List.tail]
      calc joinLines ((c :: h) :: t) = joinLines (([c] ++ h) :: t) := by simp
        _ = [c] ++ joinLines (h :: t) := joinLines_append_head [c] h t
        _ = c :: rest := by rw [ih]; simp

theorem splitLines_no_newline {s : Str} (h : '\n' ∉ s) : splitLines s = [s] := by
  induction s with
  | nil => simp [splitLines]
  | cons c rest ih =>
    simp only [List.mem_cons, not_or] at h
    rw [splitLines_cons_of_ne rest (fun hc => h.1 hc.symm), ih h.2]
    simp [List.headI, List.tail]

theorem splitLines_append_newline {a : Str} (b : Str) (h : '\n' ∉ a) :
    splitLines (a ++ '\n' :: b) = a :: splitLines b := by
  induction a with
  | nil => simpa using splitLines_cons_newline b
  | cons c a' ih =>
    simp only [List.mem_cons, not_or] at h
    rw [List.cons_append, splitLines_cons_of_ne _ (fun hc => h.1 hc.symm), ih h.2]
    simp [List.headI, List.tail]

theorem splitLines_joinLines {ls : List Str} (hne : ls ≠ [])
    (hnl : ∀ l ∈ ls, '\n' ∉ l) : splitLines (joinLines ls) = ls := by
  induction ls with
  | nil => exact absurd rfl hne
  | cons l ls' ih =>
    cases ls' with
    | nil => simpa [joinLines] using splitLines_no_newline (hnl l (by simp))
    | cons x xs =>
      have : joinLines (l :: x :: xs) = l ++ '\n' :: joinLines (x :: xs) := by
        simp [joinLines]
      rw [this, splitLines_append_newline _ (hnl l (by simp)),
        ih (by simp) (fun y hy => hnl y (List.mem_cons_of_mem l hy))]

theorem mem_splitLines_no_newline {s : Str} {l : Str} (h : l ∈ splitLines s) : '\n' ∉ l := by
  induction s generalizing l with
  | nil => simp only [splitLines, List.mem_singleton] at h; subst h; simp
  | cons c rest ih =>
    obtain ⟨hd, tl, hht⟩ := exists_splitLines_cons rest
    by_cases hc : c = '\n'
    · subst hc
      rw [splitLines_cons_newline] at h
      rcases List.mem_cons.mp h with h' | h'
      · subst h'; simp
      · exact ih h'
    · rw [splitLines_cons_of_ne rest hc, hht] at h
      simp only [List.headI, List.tail] at h
      rcases List.mem_cons.mp h with h' | h'
      · subst h'
        simp only [List.mem_cons, not_or]
        exact ⟨fun hx => hc hx.symm, ih (hht ▸ List.mem_cons_self hd tl)⟩
      · exact ih (hht ▸ List.mem_cons_of_mem hd h')

/-! ### squishArrays -/

theorem squishArrays_nil_left (b : List Str) : squishArrays [] b = b := by
  cases b <;> simp [squishArrays]

theorem squishArrays_nil_right (a : List Str) : squishArrays a [] = a := rfl

theorem squishArrays_cons_ne_nil (a : List Str) (f : Str) (r : List Str) :
    squishArrays a (f :: r) ≠ [] := by
  simp [squishArrays]

theorem squishArrays_cons_left {xs : List Str} (x : Str) (b : List Str) (hxs : xs ≠ []) :
    squishArrays (x :: xs) b = x :: squishArrays xs b := by
  obtain ⟨y, ys, rfl⟩ := List.exists_cons_of_ne_nil hxs
  cases b with
  | nil => simp [squishArrays]
  | cons f r => simp [squishArrays, List.getLast?_cons_cons]

theorem squishArrays_ne_nil {a b : List Str} (h : a ≠ [] ∨ b ≠ []) :
    squishArrays a b ≠ [] := by
  cases b with
  | nil => simpa [squishArrays] using h
  | cons f r => exact squishArrays_cons_ne_nil a f r

theorem splitLines_append (a b : Str) :
    splitLines (a ++ b) = squishArrays (splitLines a) (splitLines b) := by
  induction a with
  | nil =>
    obtain ⟨h, t, hht⟩ := exists_splitLines_cons b
    simp [splitLines, hht, squishArrays]
  | cons c a' ih =>
    by_cases hc : c = '\n'
    · subst hc
      rw [List.cons_append, splitLines_cons_newline, splitLines_cons_newline, ih,
        squishArrays_cons_left _ _ (splitLines_ne_nil a')]
    · obtain ⟨h, t, hht⟩ := exists_splitLines_cons a'
      rw [List.cons_append, splitLines_cons_of_ne _ hc, splitLines_cons_of_ne _ hc, ih, hht]
      cases t with
      | nil =>
        obtain ⟨hb, tb, hbt⟩ := exists_splitLines_cons b
        simp [squishArrays, hbt]
      | cons t0 ts =>
        rw [@squishArrays_cons_left (t0 :: ts) h (splitLines b) (by simp)]
        simp only [List.headI, List.tail]
        rw [@squishArrays_cons_left (t0 :: ts) (c :: h) (splitLines b) (by simp)]

theorem squishArrays_assoc (a : List Str) {b : List Str} (c : List Str) (hb : b ≠ []) :
    squishArrays (squishArrays a b) c = squishArrays a (squishArrays b c) := by
  obtain ⟨b0, bt, rfl⟩ := List.exists_cons_of_ne_nil hb
  cases c with
  | nil => rw [squishArrays_nil_right, squishArrays_nil_right]
  | cons c0 ct =>
    cases bt with
    | nil =>
      show squishArrays (a.dropLast ++ [(a.getLast?.getD []) ++ b0]) (c0 :: ct) = _
      show _ = squishArrays a ([].dropLast ++ (([b0].getLast?.getD []) ++ c0) :: ct)
      simp only [squishArrays, List.dropLast_concat, List.getLast?_concat, Option.getD_some,
        List.dropLast_nil, List.getLast?_singleton, List.nil_append, List.append_assoc]
    | cons b1 bts =>
      show squishArrays (a.dropLast ++ ((a.getLast?.getD []) ++ b0) :: b1 :: bts) (c0 :: ct) = _
      obtain ⟨w, hw⟩ : ∃ w, (b1 :: bts).getLast? = some w :=
        ⟨(b1 :: bts).getLast (by simp), List.getLast?_eq_getLast _ _⟩
      show _ = squishArrays a (squishArrays (b0 :: b1 :: bts) (c0 :: ct))
      simp only [squishArrays, List.dropLast_append_cons, List.getLast?_append,
        List.getLast?_cons_cons, hw, Option.or_some, Option.getD_some, List.dropLast_cons₂,
        List.cons_append, List.append_assoc]

theorem joinLines_cons_cons (x y : Str) (t : List Str) :
    joinLines (x :: y :: t) = x ++ '\n' :: joinLines (y :: t) := by
  simp [joinLines]

theorem joinLines_squishArrays (a b : List Str) :
    joinLines (squishArrays a b) = joinLines a ++ joinLines b := by
  cases b with
  | nil => rw [squishArrays_nil_right]; simp [joinLines]
  | cons b0 bt =>
    induction a with
    | nil => rw [squishArrays_nil_left]; simp [joinLines]
    | cons a0 arest ih =>
      cases arest with
      | nil =>
        show joinLines ([].dropLast ++ (([a0].getLast?.getD []) ++ b0) :: bt) = _
        simp only [List.dropLast_nil, List.getLast?_singleton, Option.getD_some, List.nil_append]
        rw [joinLines_append_head]
        simp [joinLines]
      | cons a1 ats =>
        rw [squishArrays_cons_left a0 _ (by simp)]
        obtain ⟨z, zs, hz⟩ := List.exists_cons_of_ne_nil
          (@squishArrays_ne_nil (a1 :: ats) (b0 :: bt) (Or.inl (by simp)))
        rw [hz, joinLines_cons_cons, ← hz, ih, joinLines_cons_cons, List.append_assoc,
          List.cons_append]

theorem curResultLinesOf_ne_nil (literal : Str) (value : Option JSVal) :
    curResultLinesOf literal value ≠ [] := by
  unfold curResultLinesOf
  cases value with
  | none => exact splitLines_ne_nil literal
  | some v =>
    by_cases hv : jsTruthy v
    · simp only [hv, if_true]
      exact squishArrays_cons_ne_nil _ _ _
    · simp only [hv, if_false]
      exact splitLines_ne_nil literal

theorem joinLoop_factor (lits : List Str) (vals : List JSVal) (acc : List Str) :
    joinLoop lits vals acc = squishArrays acc (joinLoop lits vals []) := by
  induction lits generalizing vals acc with
  | nil => simp [joinLoop, squishArrays_nil_right]
  | cons lit lits' ih =>
    show joinLoop lits' vals.tail (squishArrays acc (curResultLinesOf lit vals.head?)) = _
    rw [ih vals.tail (squishArrays acc (curResultLinesOf lit vals.head?)),
      squishArrays_assoc acc _ (curResultLinesOf_ne_nil lit vals.head?)]
    show _ = squishArrays acc (joinLoop lits' vals.tail (squishArrays [] (curResultLinesOf lit vals.head?)))
    rw [squishArrays_nil_left, ih vals.tail (curResultLinesOf lit vals.head?)]

theorem joinTemplateString_cons (lit : Str) (lits : List Str) (vals : List JSVal) :
    joinTemplateString (lit :: lits) vals =
      joinLines (curResultLinesOf lit vals.head?) ++ joinTemplateString lits vals.tail := by
  show joinLines (joinLoop lits vals.tail (squishArrays [] (curResultLinesOf lit vals.head?))) = _
  rw [squishArrays_nil_left, joinLoop_factor, joinLines_squishArrays]
  rfl

theorem joinTemplateString_nil (vals : List JSVal) : joinTemplateString [] vals = [] := rfl

theorem joinTemplateString_append {P : List Str} {W : List JSVal} (lits : List Str)
    (vals : List JSVal) (hPW : P.length = W.length) :
    joinTemplateString (P ++ lits) (W ++ vals) =
      joinTemplateString P W ++ joinTemplateString lits vals := by
  induction P generalizing W with
  | nil =>
    cases W with
    | nil => simp [joinTemplateString_nil]
    | cons w W' => simp at hPW
  | cons p P' ih =>
    cases W with
    | nil => simp at hPW
    | cons w W' =>
      simp only [List.length_cons, Nat.add_right_cancel_iff] at hPW
      rw [List.cons_append, List.cons_append, joinTemplateString_cons, joinTemplateString_cons]
      simp only [List.head?_cons, List.tail_cons]
      rw [ih hPW, List.append_assoc]

/-! ### The minimum-indentation computation -/

theorem foldl_minStep_some (ls : List Str) (a : Nat) :
    ls.foldl minStep (some a) =
      some (((ls.filter (fun l => !isOnlyWhitespace l)).map whitespaceAtBeginning).foldl
        Nat.min a) := by
  induction ls generalizing a with
  | nil => simp
  | cons l ls' ih =>
    by_cases hl : isOnlyWhitespace l = true
    · simp [minStep, hl, ih, List.filter_cons]
    · simp only [Bool.not_eq_true] at hl
      simp [minStep, hl, ih, List.filter_cons]

theorem foldl_minStep_none (ls : List Str) :
    ls.foldl minStep none =
      match (ls.filter (fun l => !isOnlyWhitespace l)).map whitespaceAtBeginning with
      | [] => none
      | n :: ns => some (ns.foldl Nat.min n) := by
  induction ls with
  | nil => simp
  | cons l ls' ih =>
    by_cases hl : isOnlyWhitespace l = true
    · simp [minStep, hl, ih, List.filter_cons]
    · simp only [Bool.not_eq_true] at hl
      simp [minStep, hl, foldl_minStep_some, List.filter_cons]

theorem whitespaceAtBeginningMultiline_eq_spec (s : Str) :
    whitespaceAtBeginningMultiline s = specMinIndent s := by
  unfold whitespaceAtBeginningMultiline specMinIndent
  rw [foldl_minStep_none]
  cases ((splitLines s).filter (fun l => !isOnlyWhitespace l)).map whitespaceAtBeginning with
  | nil => rfl
  | cons n ns => rfl

theorem foldl_min_le_init (ns : List Nat) (a : Nat) : ns.foldl Nat.min a ≤ a := by
  induction ns generalizing a with
  | nil => simp
  | cons x xs ih => exact le_trans (ih (Nat.min a x)) (Nat.min_le_left a x)

theorem foldl_min_le_mem (ns : List Nat) (a : Nat) :
    ∀ x ∈ ns, ns.foldl Nat.min a ≤ x := by
  induction ns generalizing a with
  | nil => simp
  | cons y ys ih =>
    intro x hx
    rcases List.mem_cons.mp hx with h | h
    · subst h
      exact le_trans (foldl_min_le_init ys (Nat.min a x)) (Nat.min_le_right a x)
    · exact ih (Nat.min a y) x h

theorem foldl_min_mem (ns : List Nat) (a : Nat) :
    ns.foldl Nat.min a = a ∨ ns.foldl Nat.min a ∈ ns := by
  induction ns generalizing a with
  | nil => simp
  | cons x xs ih =>
    rcases ih (Nat.min a x) with h | h
    · have hmin : Nat.min a x = a ∨ Nat.min a x = x := by
        rcases Nat.le_total a x with h' | h'
        · exact Or.inl (Nat.min_eq_left h')
        · exact Or.inr (Nat.min_eq_right h')
      rcases hmin with hm | hm
      · left; simp only [List.foldl_cons]; rw [h, hm]
      · right; simp only [List.foldl_cons]; rw [h, hm]; exact List.mem_cons_self x xs
    · right; exact List.mem_cons_of_mem x h

theorem specMinIndent_le {s : Str} {l : Str} (hmem : l ∈ splitLines s)
    (hnb : isOnlyWhitespace l = false) : specMinIndent s ≤ whitespaceAtBeginning l := by
  unfold specMinIndent
  have hfl : l ∈ (splitLines s).filter (fun x => !isOnlyWhitespace x) :=
    List.mem_filter.mpr ⟨hmem, by simp [hnb]⟩
  have hml : whitespaceAtBeginning l ∈
      ((splitLines s).filter (fun x => !isOnlyWhitespace x)).map whitespaceAtBeginning :=
    List.mem_map_of_mem whitespaceAtBeginning hfl
  obtain ⟨n, ns, hns⟩ := List.exists_cons_of_ne_nil (List.ne_nil_of_mem hml)
  rw [hns]
  rw [hns, List.mem_cons] at hml
  rcases hml with h | h
  · rw [← h]; exact foldl_min_le_init ns _
  · exact foldl_min_le_mem ns n _ h

theorem specMinIndent_attained {s : Str}
    (h : ∃ l ∈ splitLines s, isOnlyWhitespace l = false) :
    ∃ l ∈ splitLines s, isOnlyWhitespace l = false ∧
      whitespaceAtBeginning l = specMinIndent s := by
  obtain ⟨l, hmem, hnb⟩ := h
  have hfl : l ∈ (splitLines s).filter (fun x => !isOnlyWhitespace x) :=
    List.mem_filter.mpr ⟨hmem, by simp [hnb]⟩
  have hml : whitespaceAtBeginning l ∈
      ((splitLines s).filter (fun x => !isOnlyWhitespace x)).map whitespaceAtBeginning :=
    List.mem_map_of_mem whitespaceAtBeginning hfl
  obtain ⟨n, ns, hns⟩ := List.exists_cons_of_ne_nil (List.ne_nil_of_mem hml)
  have hmin : specMinIndent s = ns.foldl Nat.min n := by unfold specMinIndent; rw [hns]
  have : specMinIndent s ∈ n :: ns := by
    rw [hmin]
    rcases foldl_min_mem ns n with h' | h'
    · rw [h']; exact List.mem_cons_self n ns
    · exact List.mem_cons_of_mem n h'
  rw [← hns] at this
  obtain ⟨l', hl', hwl'⟩ := List.mem_map.mp this
  obtain ⟨hmem', hnb'⟩ := List.mem_filter.mp hl'
  exact ⟨l', hmem', by simpa using hnb', hwl'⟩

theorem specMinIndent_of_all_blank {s : Str}
    (h : ∀ l ∈ splitLines s, isOnlyWhitespace l = true) : specMinIndent s = 0 := by
  unfold specMinIndent
  have : (splitLines s).filter (fun x => !isOnlyWhitespace x) = [] := by
    rw [List.filter_eq_nil_iff]
    intro a ha
    simp [h a ha]
  rw [this]
  rfl

/-! ### The blank-edge trimmer -/

theorem dropWhile_append_all {p : Str → Bool} {a : List Str} (b : List Str)
    (h : ∀ x ∈ a, p x = true) : List.dropWhile p (a ++ b) = List.dropWhile p b := by
  induction a with
  | nil => simp
  | cons x xs ih =>
    rw [List.cons_append, List.dropWhile_cons, if_pos (h x (by simp))]
    exact ih (fun y hy => h y (List.mem_cons_of_mem x hy))

theorem dropWhile_cons_false {p : Str → Bool} {x : Str} (xs : List Str)
    (h : p x = false) : List.dropWhile p (x :: xs) = x :: xs := by
  rw [List.dropWhile_cons, if_neg (by simp [h])]

theorem removeLeadingWhitespaceLines_nil : removeLeadingWhitespaceLines [] = [] := rfl

theorem removeInitialWhitespaceLines_nil : removeInitialWhitespaceLines [] = [] := rfl

/-- The core of the blank-edge trimmer: for any string presented as a
whitespace-only front block, a kept middle whose first and last lines are not
whitespace-only, and a whitespace-only back block, the two trimming passes
return exactly the middle. -/
theorem trim_decomp (front kept back : List Str)
    (hf : ∀ l ∈ front, isOnlyWhitespace l = true)
    (hb : ∀ l ∈ back, isOnlyWhitespace l = true)
    (hn : ∀ l ∈ kept, '\n' ∉ l)
    (hh : ∀ l, kept.head? = some l → isOnlyWhitespace l = false)
    (hl : ∀ l, kept.getLast? = some l → isOnlyWhitespace l = false) :
    removeLeadingWhitespaceLines (removeInitialWhitespaceLines
      (joinLines (front ++ kept ++ back))) = joinLines kept := by
  by_cases hne : front ++ kept ++ back = []
  · obtain ⟨hfe, hke, hbe⟩ : front = [] ∧ kept = [] ∧ back = [] := by
      simpa [List.append_eq_nil] using hne
    subst hfe; subst hke; subst hbe
    rfl
  · have hnl : ∀ l ∈ front ++ kept ++ back, '\n' ∉ l := by
      intro l hmem
      rcases List.mem_append.mp hmem with h' | h'
      · rcases List.mem_append.mp h' with h'' | h''
        · exact no_newline_of_blank (hf l h'')
        · exact hn l h''
      · exact no_newline_of_blank (hb l h')
    have hsplit := splitLines_joinLines hne hnl
    unfold removeInitialWhitespaceLines
    rw [hsplit, List.append_assoc, dropWhile_append_all _ hf]
    cases kept with
    | nil =>
      have : List.dropWhile isOnlyWhitespace back = [] :=
        List.dropWhile_eq_nil_iff.mpr (fun x hx => hb x hx)
      rw [List.nil_append, this]
      show removeLeadingWhitespaceLines (joinLines []) = joinLines []
      rfl
    | cons k0 kt =>
      rw [List.cons_append, dropWhile_cons_false _ (hh k0 rfl), ← List.cons_append]
      unfold removeLeadingWhitespaceLines
      have hnl2 : ∀ l ∈ (k0 :: kt) ++ back, '\n' ∉ l := by
        intro l hmem
        rcases List.mem_append.mp hmem with h' | h'
        · exact hn l h'
        · exact no_newline_of_blank (hb l h')
      rw [splitLines_joinLines (by simp) hnl2, List.reverse_append,
        dropWhile_append_all _ (fun x hx => hb x (List.mem_reverse.mp hx))]
      obtain ⟨r0, rt, hr⟩ := List.exists_cons_of_ne_nil
        (List.reverse_ne_nil_iff.mpr (List.cons_ne_nil k0 kt))
      have hr0 : isOnlyWhitespace r0 = false := by
        apply hl
        rw [← List.head?_reverse, hr]
        rfl
      rw [hr, dropWhile_cons_false _ hr0, ← hr, List.reverse_reverse]

/-- Every string decomposes into a whitespace-only front, a kept middle with
non-whitespace-only first and last lines, and a whitespace-only back, with the
two trimming passes returning exactly the middle. -/
theorem trim_exists (u : Str) :
    ∃ front kept back, splitLines u = front ++ kept ++ back ∧
      (∀ l ∈ front, isOnlyWhitespace l = true) ∧
      (∀ l ∈ back, isOnlyWhitespace l = true) ∧
      (∀ l, kept.head? = some l → isOnlyWhitespace l = false) ∧
      (∀ l, kept.getLast? = some l → isOnlyWhitespace l = false) ∧
      removeLeadingWhitespaceLines (removeInitialWhitespaceLines u) = joinLines kept := by
  have hfd : (splitLines u).takeWhile isOnlyWhitespace ++
      (splitLines u).dropWhile isOnlyWhitespace = splitLines u :=
    List.takeWhile_append_dropWhile isOnlyWhitespace (splitLines u)
  have hf : ∀ l ∈ (splitLines u).takeWhile isOnlyWhitespace, isOnlyWhitespace l = true :=
    fun l hmem => List.mem_takeWhile_imp hmem
  cases hdd : (splitLines u).dropWhile isOnlyWhitespace with
  | nil =>
    refine ⟨(splitLines u).takeWhile isOnlyWhitespace, [], [], ?_, hf, by simp, by simp,
      by simp, ?_⟩
    · rw [hdd, List.append_nil] at hfd
      rw [List.append_nil, List.append_nil]
      exact hfd.symm
    · have hrmi : removeInitialWhitespaceLines u = joinLines ([] : List Str) := by
        unfold removeInitialWhitespaceLines
        rw [hdd]
      rw [hrmi]
      rfl
  | cons d0 dt =>
    have hd0 : isOnlyWhitespace d0 = false := by
      have := List.head?_dropWhile_not isOnlyWhitespace (splitLines u)
      rw [hdd] at this
      simpa using this
    have hkb : ((d0 :: dt).reverse.dropWhile isOnlyWhitespace).reverse ++
        ((d0 :: dt).reverse.takeWhile isOnlyWhitespace).reverse = d0 :: dt := by
      rw [← List.reverse_append, List.takeWhile_append_dropWhile, List.reverse_reverse]
    have hbblank : ∀ l ∈ ((d0 :: dt).reverse.takeWhile isOnlyWhitespace).reverse,
        isOnlyWhitespace l = true :=
      fun l hmem => List.mem_takeWhile_imp (List.mem_reverse.mp hmem)
    have hkne : ((d0 :: dt).reverse.dropWhile isOnlyWhitespace).reverse ≠ [] := by
      intro hke
      have hmem : d0 ∈ ((d0 :: dt).reverse.takeWhile isOnlyWhitespace).reverse := by
        have h2 := hkb
        rw [hke, List.nil_append] at h2
        rw [h2]
        exact List.mem_cons_self d0 dt
      rw [hbblank d0 hmem] at hd0
      exact Bool.true_eq_false.mp hd0
    have hkhead : ∀ l, ((d0 :: dt).reverse.dropWhile isOnlyWhitespace).reverse.head? = some l →
        isOnlyWhitespace l = false := by
      intro l hlh
      obtain ⟨k0, kt, hk⟩ := List.exists_cons_of_ne_nil hkne
      rw [hk] at hlh
      simp only [List.head?_cons, Option.some_inj] at hlh
      subst hlh
      have h2 := hkb
      rw [hk, List.cons_append] at h2
      simp only [List.cons.injEq] at h2
      rw [h2.1]
      exact hd0
    have hklast : ∀ l, ((d0 :: dt).reverse.dropWhile isOnlyWhitespace).reverse.getLast? = some l →
        isOnlyWhitespace l = false := by
      intro l hlh
      rw [List.getLast?_reverse] at hlh
      have h2 := List.head?_dropWhile_not isOnlyWhitespace (d0 :: dt).reverse
      rw [hlh] at h2
      simpa using h2
    have hnl2 : ∀ l ∈ d0 :: dt, '\n' ∉ l := by
      intro l hmem
      have hmem2 : l ∈ List.dropWhile isOnlyWhitespace (splitLines u) := by
        rw [hdd]; exact hmem
      exact mem_splitLines_no_newline
        ((List.dropWhile_sublist isOnlyWhitespace).subset hmem2)
    refine ⟨(splitLines u).takeWhile isOnlyWhitespace,
      ((d0 :: dt).reverse.dropWhile isOnlyWhitespace).reverse,
      ((d0 :: dt).reverse.takeWhile isOnlyWhitespace).reverse,
      ?_, hf, hbblank, hkhead, hklast, ?_⟩
    · rw [List.append_assoc, hkb, ← hdd]
      exact hfd.symm
    · have hrmi : removeInitialWhitespaceLines u = joinLines (d0 :: dt) := by
        unfold removeInitialWhitespaceLines
        rw [hdd]
      rw [hrmi]
      unfold removeLeadingWhitespaceLines
      rw [splitLines_joinLines (by simp) hnl2]

/-! ### The joiner on single pieces -/

theorem curResultLinesOf_none (literal : Str) :
    curResultLinesOf literal none = splitLines literal := rfl

theorem curResultLinesOf_some (literal : Str) (v : JSVal) :
    curResultLinesOf literal (some v) =
      if jsTruthy v = true then
        squishArrays (splitLines literal)
          ((splitLines (jsToString v)).headI ::
            (splitLines (jsToString v)).tail.map
              (fun line =>
                List.replicate
                  (whitespaceAtBeginning ((splitLines literal).getLastD [])) ' ' ++ line))
      else splitLines literal := rfl

theorem curResultLinesOf_falsy (literal : Str) {v : JSVal} (hv : jsTruthy v = false) :
    curResultLinesOf literal (some v) = splitLines literal := by
  rw [curResultLinesOf_some, hv]
  simp

theorem curResultLinesOf_truthy (literal : Str) {v : JSVal} (hv : jsTruthy v = true) :
    curResultLinesOf literal (some v) =
      squishArrays (splitLines literal)
        ((splitLines (jsToString v)).headI ::
          (splitLines (jsToString v)).tail.map
            (fun line =>
              List.replicate
                (whitespaceAtBeginning ((splitLines literal).getLastD [])) ' ' ++ line)) := by
  rw [curResultLinesOf_some, hv]
  simp

theorem joinLines_curResultLinesOf_none (literal : Str) :
    joinLines (curResultLinesOf literal none) = literal := by
  rw [curResultLinesOf_none]
  exact joinLines_splitLines literal

theorem joinTemplateString_single (literal : Str) :
    joinTemplateString [literal] [] = literal := by
  rw [joinTemplateString_cons]
  simp only [List.head?_nil, List.tail_nil]
  rw [joinLines_curResultLinesOf_none, joinTemplateString_nil, List.append_nil]

theorem getLastD_squishArrays_of_two {sB : List Str} (sA : List Str)
    (h : 2 ≤ sB.length) :
    (squishArrays sA sB).getLastD [] = sB.getLastD [] := by
  have hne : sB ≠ [] := by
    intro h0
    rw [h0] at h
    simp at h
  obtain ⟨b0, bt, rfl⟩ := List.exists_cons_of_ne_nil hne
  cases bt with
  | nil => simp at h
  | cons b1 bts =>
    show (sA.dropLast ++ ((sA.getLast?.getD []) ++ b0) :: b1 :: bts).getLastD [] = _
    rw [List.getLastD_eq_getLast?, List.getLastD_eq_getLast?, List.getLast?_append]
    rw [List.getLast?_cons_cons]
    obtain ⟨w, hw⟩ : ∃ w, (b1 :: bts).getLast? = some w :=
      ⟨(b1 :: bts).getLast (by simp), List.getLast?_eq_getLast _ _⟩
    rw [hw, List.getLast?_cons_cons, hw]
    rfl

theorem mem_newline_two_lines {b : Str} (h : '\n' ∈ b) : 2 ≤ (splitLines b).length := by
  induction b with
  | nil => simp at h
  | cons c rest ih =>
    by_cases hc : c = '\n'
    · subst hc
      rw [splitLines_cons_newline, List.length_cons]
      have h1 := splitLines_ne_nil rest
      have h2 : 0 < (splitLines rest).length := List.length_pos.mpr h1
      omega
    · rcases List.mem_cons.mp h with h' | h'
      · exact absurd h'.symm hc
      · obtain ⟨hd, tl, hht⟩ := exists_splitLines_cons rest
        rw [splitLines_cons_of_ne rest hc, hht]
        have h3 := ih h'
        rw [hht] at h3
        simpa using h3

theorem joinLines_cons_eq (x : Str) (t : List Str) :
    joinLines (x :: t) = x ++ (t.map (fun l => '\n' :: l)).flatten := by
  induction t generalizing x with
  | nil => simp [joinLines]
  | cons y ys ih =>
    rw [joinLines_cons_cons, ih y]
    simp

theorem joinLines_curResultLinesOf_truthy (A : Str) {v : JSVal} (hv : jsTruthy v = true) :
    joinLines (curResultLinesOf A (some v)) =
      A ++ (splitLines (jsToString v)).headI ++
        ((splitLines (jsToString v)).tail.map
          (fun line => '\n' :: (List.replicate
            (whitespaceAtBeginning ((splitLines A).getLastD [])) ' ' ++ line))).flatten := by
  rw [curResultLinesOf_truthy A hv, joinLines_squishArrays, joinLines_splitLines,
    joinLines_cons_eq, List.map_map, ← List.append_assoc]
  rfl

theorem joinLines_curResultLinesOf_merge (A B : Str) (vo : Option JSVal)
    (hnext : ∀ v, vo = some v → jsTruthy v = true → '\n' ∈ B) :
    joinLines (curResultLinesOf (A ++ B) vo) = A ++ joinLines (curResultLinesOf B vo) := by
  cases vo with
  | none =>
    rw [curResultLinesOf_none, curResultLinesOf_none, joinLines_splitLines,
      joinLines_splitLines]
  | some v =>
    by_cases hv : jsTruthy v = true
    · have hB := hnext v rfl hv
      have h2 := mem_newline_two_lines hB
      have hlast : (splitLines (A ++ B)).getLastD [] = (splitLines B).getLastD [] := by
        rw [splitLines_append]
        exact getLastD_squishArrays_of_two _ h2
      rw [curResultLinesOf_truthy _ hv, curResultLinesOf_truthy _ hv, hlast,
        splitLines_append, squishArrays_assoc _ _ (splitLines_ne_nil B),
        joinLines_squishArrays, joinLines_splitLines]
    · have hvf : jsTruthy v = false := by
        rcases Bool.eq_false_or_eq_true (jsTruthy v) with h | h
        · exact absurd h hv
        · exact h
      rw [curResultLinesOf_falsy _ hvf, curResultLinesOf_falsy _ hvf,
        joinLines_splitLines, joinLines_splitLines]

theorem tag_congr {lits1 lits2 : List Str} {vals1 vals2 : List JSVal}
    (hjoin : joinTemplateString lits1 vals1 = joinTemplateString lits2 vals2)
    (hflat : lits1.flatten = lits2.flatten) : tag lits1 vals1 = tag lits2 vals2 := by
  unfold tag dedented
  rw [hjoin, hflat]

/-! ### Claims -/

/-- C1 (counterexample): eliding the falsy value `0` between the literal
segments `"  a"` and `""` and concatenating those segments changes the result,
because the local indentation offset for the following truthy multi-line value
is computed from the last line of its own preceding literal, which the merge
changes from `""` to `"  a"`. -/
theorem falsy_elision_counterexample :
    ¬ (tag ["  a".toList, "".toList, "x".toList]
          [JSVal.vnum 0, JSVal.vstr "p\nq".toList] =
        tag ["  a".toList, "x".toList] [JSVal.vstr "p\nq".toList]) := by
  decide

/-- C1 (amended): deleting a falsy value `V[i]` and replacing `L[i]`, `L[i+1]`
by their concatenation leaves the normalized output unchanged, provided the
value following the deleted one (when it exists and is truthy) is preceded by
a literal `L[i+1]` that contains a newline — otherwise the local indentation
offset of that following value may change. -/
theorem falsy_elision_amended (P : List Str) (W : List JSVal) (A B : Str)
    (rest : List Str) (vrest : List JSVal) (u : JSVal)
    (hPW : P.length = W.length) (hu : jsTruthy u = false)
    (hnext : ∀ v, vrest.head? = some v → jsTruthy v = true → '\n' ∈ B) :
    tag (P ++ A :: B :: rest) (W ++ u :: vrest) =
      tag (P ++ (A ++ B) :: rest) (W ++ vrest) := by
  apply tag_congr
  · rw [joinTemplateString_append _ _ hPW, joinTemplateString_append _ _ hPW,
      joinTemplateString_cons, joinTemplateString_cons, joinTemplateString_cons]
    simp only [List.head?_cons, List.tail_cons]
    rw [curResultLinesOf_falsy _ hu, joinLines_splitLines,
      joinLines_curResultLinesOf_merge A B vrest.head? (fun v hv => hnext v hv),
      List.append_assoc]
  · simp [List.append_assoc]

/-- C1 (witness for the amended claim). -/
theorem falsy_elision_amended_witness :
    jsTruthy (JSVal.vnum 0) = false ∧
      tag ([] ++ "  a".toList :: "\n x".toList :: ["y".toList])
          ([] ++ JSVal.vnum 0 :: [JSVal.vstr "p\nq".toList]) =
        tag ([] ++ ("  a".toList ++ "\n x".toList) :: ["y".toList])
          ([] ++ [JSVal.vstr "p\nq".toList]) :=
  ⟨by decide,
    falsy_elision_amended [] [] "  a".toList "\n x".toList ["y".toList]
      [JSVal.vstr "p\nq".toList] (JSVal.vnum 0) rfl (by decide)
      (by
        intro v hv htv
        simp only [List.head?_cons, Option.some_inj] at hv
        subst hv
        decide)⟩

/-- C2: for a truthy value `V[i]`, the joined string equals the join of
everything up to and including `L[i]`, with the first line of the value's
string form appended directly (no added indentation), every later line of the
value preceded by a newline and exactly `offset` spaces — where `offset` is
the leading-space count of the last line of `L[i]` — followed by the join of
the remaining template.  This is the output of the joiner, before the global
dedent. -/
theorem joiner_local_offset (P : List Str) (W : List JSVal) (A : Str) (rest : List Str)
    (vrest : List JSVal) (v : JSVal) (hPW : P.length = W.length)
    (hv : jsTruthy v = true) :
    joinTemplateString (P ++ A :: rest) (W ++ v :: vrest) =
      joinTemplateString (P ++ [A]) W ++ (splitLines (jsToString v)).headI ++
        ((splitLines (jsToString v)).tail.map
          (fun line => '\n' :: (List.replicate
            (whitespaceAtBeginning ((splitLines A).getLastD [])) ' ' ++ line))).flatten ++
        joinTemplateString rest vrest := by
  have h3 : joinTemplateString (P ++ [A]) W = joinTemplateString P W ++ A := by
    have h := @joinTemplateString_append P W [A] [] hPW
    rw [List.append_nil] at h
    rw [h, joinTemplateString_single]
  rw [joinTemplateString_append _ _ hPW, joinTemplateString_cons]
  simp only [List.head?_cons, List.tail_cons]
  rw [joinLines_curResultLinesOf_truthy A hv, h3]
  simp [List.append_assoc]

/-- C2 (witness). -/
theorem joiner_local_offset_witness :
    jsTruthy (JSVal.vstr "a\nb".toList) = true ∧
      joinTemplateString ([] ++ "  q".toList :: ["z".toList])
          ([] ++ JSVal.vstr "a\nb".toList :: []) =
        joinTemplateString ([] ++ ["  q".toList]) [] ++
          (splitLines (jsToString (JSVal.vstr "a\nb".toList))).headI ++
          ((splitLines (jsToString (JSVal.vstr "a\nb".toList))).tail.map
            (fun line => '\n' :: (List.replicate
              (whitespaceAtBeginning
                ((splitLines "  q".toList).getLastD [])) ' ' ++ line))).flatten ++
          joinTemplateString ["z".toList] [] :=
  ⟨by decide,
    joiner_local_offset [] [] "  q".toList ["z".toList] [] (JSVal.vstr "a\nb".toList)
      rfl (by decide)⟩

/-- C3: the dedent amount used by `tag` — `whitespaceAtBeginningMultiline` of
the concatenation of the literal segments alone — equals the specification's
description: the minimum leading-space count over the lines of that
concatenation that are not whitespace-only, and `0` when every such line is
whitespace-only (or there are none). -/
theorem dedent_amount_eq_spec (literals : List Str) :
    whitespaceAtBeginningMultiline literals.flatten = specMinIndent literals.flatten :=
  whitespaceAtBeginningMultiline_eq_spec literals.flatten

/-- C6: the concrete scenario with segments `"\n  <ul>"`, `"</ul>\n"` and the
value `"<li>1</li>\n<li>2</li>\n<li>3</li>"`: before dedent the continuation
lines carry the two spaces of `"  <ul>"`, and the final output is exactly
`"<ul><li>1</li>\n<li>2</li>\n<li>3</li></ul>"`. -/
theorem scenario_b_exact :
    joinTemplateString ["\n  <ul>".toList, "</ul>\n".toList]
        [JSVal.vstr "<li>1</li>\n<li>2</li>\n<li>3</li>".toList] =
      "\n  <ul><li>1</li>\n  <li>2</li>\n  <li>3</li></ul>\n".toList ∧
    tag ["\n  <ul>".toList, "</ul>\n".toList]
        [JSVal.vstr "<li>1</li>\n<li>2</li>\n<li>3</li>".toList] =
      "<ul><li>1</li>\n<li>2</li>\n<li>3</li></ul>".toList :=
  ⟨rfl, rfl⟩

/-- C4: the dedent stage removes the first `minIndent` characters from every
line of the joined string — its line list is exactly the line list of the
joined string with `minIndent` characters dropped from each line, whatever
those characters are — and any line no longer than `minIndent` becomes the
empty line. -/
theorem dedent_applies_to_all_lines (lits : List Str) (vals : List JSVal) :
    splitLines (dedented lits vals) =
      (splitLines (joinTemplateString lits vals)).map
        (fun line => line.drop (whitespaceAtBeginningMultiline lits.flatten)) ∧
    ∀ line ∈ splitLines (joinTemplateString lits vals),
      line.length ≤ whitespaceAtBeginningMultiline lits.flatten →
        line.drop (whitespaceAtBeginningMultiline lits.flatten) = [] := by
  constructor
  · unfold dedented
    apply splitLines_joinLines
    · intro h
      exact splitLines_ne_nil _ (by simpa using h)
    · intro l hmem
      obtain ⟨l0, hl0, rfl⟩ := List.mem_map.mp hmem
      exact fun hx => mem_splitLines_no_newline hl0 (List.drop_subset _ _ hx)
  · intro line _ hlen
    exact List.drop_eq_nil_of_le hlen

/-- C4 (witness). -/
theorem dedent_applies_to_all_lines_witness :
    ([' '] ∈ splitLines (joinTemplateString ["  a\n ".toList] []) ∧
      [' '].length ≤ whitespaceAtBeginningMultiline ["  a\n ".toList].flatten) ∧
    splitLines (dedented ["  a\n ".toList] []) =
      (splitLines (joinTemplateString ["  a\n ".toList] [])).map
        (fun line => line.drop (whitespaceAtBeginningMultiline ["  a\n ".toList].flatten)) ∧
    [' '].drop (whitespaceAtBeginningMultiline ["  a\n ".toList].flatten) = [] :=
  ⟨⟨by decide, by decide⟩,
    (dedent_applies_to_all_lines ["  a\n ".toList] []).1,
    (dedent_applies_to_all_lines ["  a\n ".toList] []).2 [' '] (by decide) (by decide)⟩

/-- C5: the trimmer removes whitespace-only lines only from the contiguous
runs at the very start and very end: for every decomposition of the line list
into a whitespace-only front run, a kept middle whose first and last lines are
not whitespace-only, and a whitespace-only back run, the composition of the
two trimming passes returns exactly the kept middle, rejoined with newlines in
order — interior whitespace-only lines included. -/
theorem trimmer_blank_edges_only (front kept back : List Str)
    (hf : ∀ l ∈ front, isOnlyWhitespace l = true)
    (hb : ∀ l ∈ back, isOnlyWhitespace l = true)
    (hn : ∀ l ∈ kept, '\n' ∉ l)
    (hh : ∀ l, kept.head? = some l → isOnlyWhitespace l = false)
    (hl : ∀ l, kept.getLast? = some l → isOnlyWhitespace l = false) :
    removeLeadingWhitespaceLines (removeInitialWhitespaceLines
      (joinLines (front ++ kept ++ back))) = joinLines kept :=
  trim_decomp front kept back hf hb hn hh hl

/-- C5 (witness): a blank first line and two blank last lines are removed
while the interior blank line survives. -/
theorem trimmer_blank_edges_only_witness :
    removeLeadingWhitespaceLines (removeInitialWhitespaceLines
      (joinLines ([[' ']] ++ [['a'], [' '], ['b']] ++ [[], [' ', ' ']]))) =
      joinLines [['a'], [' '], ['b']] :=
  trimmer_blank_edges_only [[' ']] [['a'], [' '], ['b']] [[], [' ', ' ']]
    (by decide) (by decide) (by decide)
    (by
      intro l hl
      simp only [List.head?_cons, Option.some_inj] at hl
      subst hl
      decide)
    (by
      intro l hl
      simp only [List.getLast?_cons_cons, List.getLast?_singleton,
        Option.some_inj] at hl
      subst hl
      decide)

/-! ### All-blank inputs -/

theorem headI_mem_of_ne_nil {l : List Str} (h : l ≠ []) : l.headI ∈ l := by
  cases l with
  | nil => exact absurd rfl h
  | cons x xs => exact List.mem_cons_self x xs

theorem blank_append {a b : Str} (ha : isOnlyWhitespace a = true)
    (hb : isOnlyWhitespace b = true) : isOnlyWhitespace (a ++ b) = true := by
  rw [isOnlyWhitespace_iff_all] at *
  intro c hc
  rcases List.mem_append.mp hc with h | h
  · exact ha c h
  · exact hb c h

theorem squishArrays_all_blank {a b : List Str}
    (ha : ∀ l ∈ a, isOnlyWhitespace l = true)
    (hb : ∀ l ∈ b, isOnlyWhitespace l = true) :
    ∀ l ∈ squishArrays a b, isOnlyWhitespace l = true := by
  cases b with
  | nil => exact ha
  | cons f r =>
    intro l hmem
    have hmem2 : l ∈ a.dropLast ++ ((a.getLast?.getD []) ++ f) :: r := hmem
    rcases List.mem_append.mp hmem2 with h | h
    · exact ha l (List.dropLast_subset a h)
    · rcases List.mem_cons.mp h with h' | h'
      · subst h'
        apply blank_append _ (hb f (List.mem_cons_self f r))
        cases hga : a.getLast? with
        | none => rfl
        | some x => exact ha x (List.mem_of_mem_getLast? hga)
      · exact hb l (List.mem_cons_of_mem f h')

theorem curResultLinesOf_all_blank (lit : Str) (vo : Option JSVal)
    (hlit : ∀ line ∈ splitLines lit, isOnlyWhitespace line = true)
    (hval : ∀ v, vo = some v → jsTruthy v = true →
      ∀ line ∈ splitLines (jsToString v), isOnlyWhitespace line = true) :
    ∀ l ∈ curResultLinesOf lit vo, isOnlyWhitespace l = true := by
  cases vo with
  | none => rw [curResultLinesOf_none]; exact hlit
  | some v =>
    by_cases hv : jsTruthy v = true
    · rw [curResultLinesOf_truthy _ hv]
      apply squishArrays_all_blank hlit
      intro l hmem
      rcases List.mem_cons.mp hmem with h' | h'
      · subst h'
        exact hval v rfl hv _ (headI_mem_of_ne_nil (splitLines_ne_nil _))
      · obtain ⟨l0, hl0, rfl⟩ := List.mem_map.mp h'
        apply blank_append
        · rw [isOnlyWhitespace_iff_all]
          intro c hc
          exact List.eq_of_mem_replicate hc
        · exact hval v rfl hv l0 (List.mem_of_mem_tail hl0)
    · have hvf : jsTruthy v = false := by
        rcases Bool.eq_false_or_eq_true (jsTruthy v) with h | h
        · exact absurd h hv
        · exact h
      rw [curResultLinesOf_falsy _ hvf]
      exact hlit

theorem joinLoop_all_blank (lits : List Str) (vals : List JSVal) (acc : List Str)
    (hlit : ∀ lit ∈ lits, ∀ line ∈ splitLines lit, isOnlyWhitespace line = true)
    (hval : ∀ v ∈ vals, jsTruthy v = true →
      ∀ line ∈ splitLines (jsToString v), isOnlyWhitespace line = true)
    (hacc : ∀ l ∈ acc, isOnlyWhitespace l = true) :
    ∀ l ∈ joinLoop lits vals acc, isOnlyWhitespace l = true := by
  induction lits generalizing vals acc with
  | nil => exact hacc
  | cons lit lits' ih =>
    show ∀ l ∈ joinLoop lits' vals.tail
      (squishArrays acc (curResultLinesOf lit vals.head?)), _
    apply ih
    · intro lit' h'
      exact hlit lit' (List.mem_cons_of_mem _ h')
    · intro v hv
      exact hval v (List.mem_of_mem_tail hv)
    · apply squishArrays_all_blank hacc
      apply curResultLinesOf_all_blank lit vals.head? (hlit lit (List.mem_cons_self _ _))
      intro v hv htv
      apply hval v _ htv
      cases vals with
      | nil => simp at hv
      | cons v0 vt =>
        simp only [List.head?_cons, Option.some_inj] at hv
        subst hv
        exact List.mem_cons_self _ _

theorem splitLines_joinLines_all_blank {ls : List Str}
    (h : ∀ l ∈ ls, isOnlyWhitespace l = true) :
    ∀ l ∈ splitLines (joinLines ls), isOnlyWhitespace l = true := by
  cases ls with
  | nil =>
    intro l hmem
    simp only [joinLines, splitLines, List.mem_singleton] at hmem
    subst hmem
    rfl
  | cons x xs =>
    have hnf : ∀ l ∈ x :: xs, '\n' ∉ l := fun l hl => no_newline_of_blank (h l hl)
    rw [splitLines_joinLines (by simp) hnf]
    exact h

theorem trim_of_all_blank {u : Str}
    (h : ∀ l ∈ splitLines u, isOnlyWhitespace l = true) :
    removeLeadingWhitespaceLines (removeInitialWhitespaceLines u) = [] := by
  unfold removeInitialWhitespaceLines
  rw [List.dropWhile_eq_nil_iff.mpr h]
  rfl

/-- C8: a template every line of whose literal segments — and of every truthy
value's string form — consists only of spaces normalizes to the empty
string; in particular the empty template `[""]` with no values does.  Such
templates are valid inputs with a well-defined output. -/
theorem all_blank_template_empty (lits : List Str) (vals : List JSVal)
    (_hlen : lits.length = vals.length + 1)
    (hlit : ∀ l ∈ lits, ∀ line ∈ splitLines l, isOnlyWhitespace line = true)
    (hval : ∀ v ∈ vals, jsTruthy v = true →
      ∀ line ∈ splitLines (jsToString v), isOnlyWhitespace line = true) :
    tag lits vals = [] := by
  have hjoined : ∀ l ∈ splitLines (joinTemplateString lits vals),
      isOnlyWhitespace l = true := by
    unfold joinTemplateString
    exact splitLines_joinLines_all_blank
      (joinLoop_all_blank lits vals [] hlit hval (by simp))
  unfold tag
  apply trim_of_all_blank
  unfold dedented
  apply splitLines_joinLines_all_blank
  intro l hmem
  obtain ⟨l0, hl0, rfl⟩ := List.mem_map.mp hmem
  exact blank_drop _ (hjoined l0 hl0)

/-- C8 (witness): the all-blank template with literally blank segments and a
truthy all-space value, and the empty template, both normalize to `""`. -/
theorem all_blank_template_empty_witness :
    (["  ".toList, [' ']].length = [JSVal.vstr [' ']].length + 1 ∧
      tag ["  ".toList, [' ']] [JSVal.vstr [' ']] = []) ∧
    (([[]] : List Str).length = ([] : List JSVal).length + 1 ∧
      tag [[]] [] = []) :=
  ⟨⟨by decide,
      all_blank_template_empty ["  ".toList, [' ']] [JSVal.vstr [' ']]
        (by decide) (by decide) (by decide)⟩,
    ⟨by decide,
      all_blank_template_empty [[]] [] (by decide) (by decide) (by decide)⟩⟩

/-! ### Space-only whitespace and output edges -/

theorem whitespaceAtBeginning_eq_takeWhile (l : Str) :
    whitespaceAtBeginning l = (l.takeWhile (fun c => c == ' ')).length := by
  induction l with
  | nil => rfl
  | cons c rest ih =>
    by_cases hc : c = ' '
    · subst hc
      rw [whitespaceAtBeginning_cons_space, List.takeWhile_cons]
      simp [ih]
    · rw [whitespaceAtBeginning_cons_ne rest hc, List.takeWhile_cons]
      simp [hc]

theorem nonblank_of_mem_ne_space {l : Str} {c : Char} (hmem : c ∈ l) (hc : c ≠ ' ') :
    isOnlyWhitespace l = false := by
  rcases Bool.eq_false_or_eq_true (isOnlyWhitespace l) with h | h
  · exact absurd ((isOnlyWhitespace_iff_all l).mp h c hmem) hc
  · exact h

theorem mem_trim_of_nonblank {s l : Str} (hmem : l ∈ splitLines s)
    (hnb : isOnlyWhitespace l = false) :
    l ∈ splitLines (removeLeadingWhitespaceLines (removeInitialWhitespaceLines s)) := by
  obtain ⟨front, kept, back, hdec, hf, hb, hh, hl, htrim⟩ := trim_exists s
  rw [htrim]
  have hlk : l ∈ kept := by
    rw [hdec] at hmem
    rcases List.mem_append.mp hmem with h' | h'
    · rcases List.mem_append.mp h' with h'' | h''
      · rw [hf l h''] at hnb
        simp at hnb
      · exact h''
    · rw [hb l h'] at hnb
      simp at hnb
  have hkne : kept ≠ [] := List.ne_nil_of_mem hlk
  have hnf : ∀ x ∈ kept, '\n' ∉ x := by
    intro x hx
    have hxs : x ∈ splitLines s := by
      rw [hdec]
      exact List.mem_append.mpr (Or.inl (List.mem_append.mpr (Or.inr hx)))
    exact mem_splitLines_no_newline hxs
  rw [splitLines_joinLines hkne hnf]
  exact hlk

/-- C9: only the space character is indentation whitespace, in every stage:
the character test accepts exactly `' '`; the leading-whitespace count of a
line is the length of its longest prefix of spaces (stopping at the first
non-space character, tabs included); a line containing any non-space character
— a tab in particular — is not whitespace-only, is kept by the edge trimmer,
and takes part in the dedent minimum. -/
theorem space_only_whitespace :
    (∀ c : Char, isWhitespaceCharacter c = true ↔ c = ' ') ∧
    (∀ l : Str, whitespaceAtBeginning l = (l.takeWhile (fun c => c == ' ')).length) ∧
    (∀ (l : Str) (c : Char), c ∈ l → c ≠ ' ' → isOnlyWhitespace l = false) ∧
    (∀ s l : Str, l ∈ splitLines s → isOnlyWhitespace l = false →
      l ∈ splitLines (removeLeadingWhitespaceLines (removeInitialWhitespaceLines s))) ∧
    (∀ s l : Str, l ∈ splitLines s → isOnlyWhitespace l = false →
      whitespaceAtBeginningMultiline s ≤ whitespaceAtBeginning l) := by
  refine ⟨isWhitespaceCharacter_iff, whitespaceAtBeginning_eq_takeWhile,
    fun l c hmem hc => nonblank_of_mem_ne_space hmem hc,
    fun s l hmem hnb => mem_trim_of_nonblank hmem hnb,
    fun s l hmem hnb => ?_⟩
  rw [whitespaceAtBeginningMultiline_eq_spec]
  exact specMinIndent_le hmem hnb

/-- C9 (witness): the conjuncts exercised at tab-containing inputs. -/
theorem space_only_whitespace_witness :
    isWhitespaceCharacter '\t' = false ∧
    whitespaceAtBeginning ['\t', ' ', 'a'] = 0 ∧
    isOnlyWhitespace [' ', '\t'] = false ∧
    [' ', '\t'] ∈ splitLines (removeLeadingWhitespaceLines
      (removeInitialWhitespaceLines " \n \t".toList)) ∧
    whitespaceAtBeginningMultiline " \n \t".toList ≤
      whitespaceAtBeginning [' ', '\t'] := by
  refine ⟨?_, ?_, ?_, ?_, ?_⟩
  · rcases Bool.eq_false_or_eq_true (isWhitespaceCharacter '\t') with ht | hf
    · exact absurd ((space_only_whitespace.1 '\t').mp ht) (by decide)
    · exact hf
  · exact (space_only_whitespace.2.1 ['\t', ' ', 'a']).trans (by decide)
  · exact space_only_whitespace.2.2.1 [' ', '\t'] '\t' (by decide) (by decide)
  · exact space_only_whitespace.2.2.2.1 " \n \t".toList [' ', '\t'] (by decide) (by decide)
  · exact space_only_whitespace.2.2.2.2 " \n \t".toList [' ', '\t'] (by decide) (by decide)

/-- C10: every normalized output is either the empty string or has a first
line and a last line that are not whitespace-only (the empty string splits
into the single whitespace-only line `""`, making it the sole exception). -/
theorem output_no_blank_edges (lits : List Str) (vals : List JSVal) :
    tag lits vals = [] ∨
      ((∀ l, (splitLines (tag lits vals)).head? = some l → isOnlyWhitespace l = false) ∧
       (∀ l, (splitLines (tag lits vals)).getLast? = some l →
          isOnlyWhitespace l = false)) := by
  obtain ⟨front, kept, back, hdec, hf, hb, hh, hl, htrim⟩ := trim_exists (dedented lits vals)
  have htag : tag lits vals = joinLines kept := htrim
  cases kept with
  | nil =>
    left
    rw [htag]
    rfl
  | cons k0 kt =>
    right
    have hnf : ∀ x ∈ k0 :: kt, '\n' ∉ x := by
      intro x hx
      have hxs : x ∈ splitLines (dedented lits vals) := by
        rw [hdec]
        exact List.mem_append.mpr (Or.inl (List.mem_append.mpr (Or.inr hx)))
      exact mem_splitLines_no_newline hxs
    have hsl : splitLines (tag lits vals) = k0 :: kt := by
      rw [htag]
      exact splitLines_joinLines (by simp) hnf
    constructor
    · intro l hlh
      rw [hsl] at hlh
      exact hh l hlh
    · intro l hlh
      rw [hsl] at hlh
      exact hl l hlh

/-- C10 (witness): the one-segment template `"a"` has the non-blank output
`"a"` on both edges. -/
theorem output_no_blank_edges_witness : isOnlyWhitespace ['a'] = false :=
  ((output_no_blank_edges [['a']] []).resolve_left (by decide)).1 ['a'] (by decide)

/-! ### Idempotence on zero-value outputs -/

theorem tag_single (s : Str) :
    tag [s] [] = removeLeadingWhitespaceLines (removeInitialWhitespaceLines
      (joinLines ((splitLines s).map
        (fun l => l.drop (whitespaceAtBeginningMultiline s))))) := by
  unfold tag dedented
  rw [joinTemplateString_single]
  have hfl : ([s] : List Str).flatten = s := by simp
  rw [hfl]

/-- C7 (counterexample): the output of normalizing a template *with a value*
can keep uniform indentation (the dedent amount is measured on the literal
segments only), so re-normalizing it as a single-segment zero-value template
changes it. -/
theorem idempotence_counterexample :
    ¬ (tag [tag ["  ".toList, []] [JSVal.vstr "x\ny".toList]] [] =
        tag ["  ".toList, []] [JSVal.vstr "x\ny".toList]) := by
  decide

/-- C7 (amended): normalization is idempotent on outputs of *zero-value*
templates: for every string `s`, normalizing the single-segment zero-value
template whose segment is `tag [s] []` returns `tag [s] []` unchanged. -/
theorem idempotent_on_zero_value_outputs (s : Str) :
    tag [tag [s] []] [] = tag [s] [] := by
  by_cases hall : ∀ l ∈ splitLines s, isOnlyWhitespace l = true
  · have hm : whitespaceAtBeginningMultiline s = 0 := by
      rw [whitespaceAtBeginningMultiline_eq_spec]
      exact specMinIndent_of_all_blank hall
    have ht : tag [s] [] = [] := by
      rw [tag_single, hm]
      have hid : (splitLines s).map (fun l => l.drop 0) = splitLines s := by simp
      rw [hid, joinLines_splitLines]
      exact trim_of_all_blank hall
    rw [ht]
    rfl
  · have hex : ∃ l ∈ splitLines s, isOnlyWhitespace l = false := by
      by_contra hno
      apply hall
      intro l hl
      rcases Bool.eq_false_or_eq_true (isOnlyWhitespace l) with h | h
      · exact h
      · exact absurd ⟨l, hl, h⟩ hno
    have hmspec : whitespaceAtBeginningMultiline s = specMinIndent s :=
      whitespaceAtBeginningMultiline_eq_spec s
    obtain ⟨l0, hl0mem, hl0nb, hl0min⟩ := specMinIndent_attained hex
    have hle0 : whitespaceAtBeginningMultiline s ≤ whitespaceAtBeginning l0 := by
      rw [hmspec, hl0min]
    have hdl_ne : (splitLines s).map
        (fun l => l.drop (whitespaceAtBeginningMultiline s)) ≠ [] := by
      intro h
      exact splitLines_ne_nil s (by simpa using h)
    have hdl_nf : ∀ l ∈ (splitLines s).map
        (fun l => l.drop (whitespaceAtBeginningMultiline s)), '\n' ∉ l := by
      intro l hmem
      obtain ⟨l1, hl1, rfl⟩ := List.mem_map.mp hmem
      exact fun hx => mem_splitLines_no_newline hl1 (List.drop_subset _ _ hx)
    have hsplitu : splitLines (joinLines ((splitLines s).map
        (fun l => l.drop (whitespaceAtBeginningMultiline s)))) =
        (splitLines s).map (fun l => l.drop (whitespaceAtBeginningMultiline s)) :=
      splitLines_joinLines hdl_ne hdl_nf
    have hdrop_nb : isOnlyWhitespace
        (l0.drop (whitespaceAtBeginningMultiline s)) = false :=
      nonblank_drop hl0nb hle0
    have hws0 : whitespaceAtBeginning
        (l0.drop (whitespaceAtBeginningMultiline s)) = 0 := by
      rw [whitespaceAtBeginning_drop hle0, hl0min, hmspec]
      exact Nat.sub_self _
    have hmem_dl : l0.drop (whitespaceAtBeginningMultiline s) ∈
        (splitLines s).map (fun l => l.drop (whitespaceAtBeginningMultiline s)) :=
      List.mem_map_of_mem _ hl0mem
    obtain ⟨front, kept, back, hdec, hff, hbb, hhh, hll, htrim⟩ :=
      trim_exists (joinLines ((splitLines s).map
        (fun l => l.drop (whitespaceAtBeginningMultiline s))))
    rw [hsplitu] at hdec
    have htags : tag [s] [] = joinLines kept := by
      rw [tag_single]
      exact htrim
    have hl0kept : l0.drop (whitespaceAtBeginningMultiline s) ∈ kept := by
      rw [hdec] at hmem_dl
      rcases List.mem_append.mp hmem_dl with h' | h'
      · rcases List.mem_append.mp h' with h'' | h''
        · rw [hff _ h''] at hdrop_nb
          simp at hdrop_nb
        · exact h''
      · rw [hbb _ h'] at hdrop_nb
        simp at hdrop_nb
    have hkne : kept ≠ [] := List.ne_nil_of_mem hl0kept
    have hknf : ∀ x ∈ kept, '\n' ∉ x := by
      intro x hx
      apply hdl_nf
      rw [hdec]
      exact List.mem_append.mpr (Or.inl (List.mem_append.mpr (Or.inr hx)))
    have hsplitt : splitLines (tag [s] []) = kept := by
      rw [htags]
      exact splitLines_joinLines hkne hknf
    have hmt : whitespaceAtBeginningMultiline (tag [s] []) = 0 := by
      rw [whitespaceAtBeginningMultiline_eq_spec]
      have hle : specMinIndent (tag [s] []) ≤
          whitespaceAtBeginning (l0.drop (whitespaceAtBeginningMultiline s)) :=
        specMinIndent_le (by rw [hsplitt]; exact hl0kept) hdrop_nb
      rw [hws0] at hle
      omega
    rw [tag_single (tag [s] []), hmt]
    have hid : (splitLines (tag [s] [])).map (fun l => l.drop 0) =
        splitLines (tag [s] []) := by simp
    rw [hid, joinLines_splitLines, htags]
    have hfin := trim_decomp [] kept [] (by simp) (by simp) hknf hhh hll
    simpa using hfin
